import Mathlib

/-!
Formal model of the scoring pipeline of `team_analysis.py` (TeamSync Lite).

The pipeline in `analyze_team_communication` is embedded shallowly:

* machine floats are idealised as exact rationals `ℚ`; the one place where an
  irrational value can arise (the standard deviation, a square root) uses `ℝ`;
* `pandas` NaN is made explicit: `Series.std()` of fewer than two values is
  `none` (pandas returns NaN there, since the divisor is `n - 1`), and every
  value downstream that the NaN infects is an `Option`;
* Python's `round(x, k)` (banker's rounding, ties to even) is `rndHE`;
* the external sentiment capability (`TextBlob(...).sentiment.polarity`) is a
  parameter `cap : String → Option ℚ`, `none` modelling a raised exception,
  which `get_sentiment` turns into the neutral default `0`;
* Python f-string labels such as `f"{v} сообщений/день"` are modelled as the
  pair of the interpolated value and the constant suffix;
* the report's `date` field (wall-clock time of the run) is outside the model.
-/

namespace TeamSync

/-- Python's built-in `round` to the nearest integer: ties go to the even
integer (banker's rounding), idealised over `ℚ`. -/
def rndHE (x : ℚ) : ℤ :=
  if x - ⌊x⌋ = 1 / 2 then (if Even ⌊x⌋ then ⌊x⌋ else ⌊x⌋ + 1) else ⌊x + 1 / 2⌋

/-- Python `round(x, 1)`. -/
def round1 (x : ℚ) : ℚ := (rndHE (x * 10) : ℚ) / 10

/-- Python `round(x, 2)`. -/
def round2 (x : ℚ) : ℚ := (rndHE (x * 100) : ℚ) / 100

open Classical in
/-- Banker's rounding over `ℝ` (needed once: the participation balance is
`1 - std` with `std` a square root, an irrational value in general). -/
noncomputable def rndHEr (x : ℝ) : ℤ :=
  if x - ⌊x⌋ = 1 / 2 then (if Even ⌊x⌋ then ⌊x⌋ else ⌊x⌋ + 1) else ⌊x + 1 / 2⌋

/-- Python `round(x, 1)` applied to a real value (the result is a multiple of
`1/10`, hence rational). -/
noncomputable def round1r (x : ℝ) : ℚ := (rndHEr (x * 10) : ℚ) / 10

/-- One cleaned message record (a row of `df` after `dropna(subset=['message'])`
and `pd.to_datetime`): the timestamp is kept as its calendar-day number — the
date portion is all the scoring reads of it. -/
structure Record where
  day : ℤ
  channel : String
  member : String
  text : String
deriving DecidableEq

/-- The `date` column (as calendar days). -/
def dayList (ds : List Record) : List ℤ := ds.map Record.day

/-- The `member` column. -/
def memberList (ds : List Record) : List String := ds.map Record.member

/-- The `message` column. -/
def textList (ds : List Record) : List String := ds.map Record.text

/-- The external sentiment capability: `some p` is a returned polarity,
`none` a raised exception. -/
abbrev Cap : Type := String → Option ℚ

/-- `get_sentiment`: `TextBlob(str(text)).sentiment.polarity` under a blanket
`except: return 0`. -/
def getSentiment (cap : Cap) (t : String) : ℚ := (cap t).getD 0

/-- `Series.mean()`: sum over length. -/
def meanQ (xs : List ℚ) : ℚ := xs.sum / xs.length

/-- `avg_sentiment = round(df['sentiment'].mean(), 2)`. -/
def avgSentimentOf (cap : Cap) (texts : List String) : ℚ :=
  round2 (meanQ (texts.map (getSentiment cap)))

/-- `sentiment_score = min(100, max(0, (avg_sentiment + 1) * 50))`. -/
def sentimentScoreOf (cap : Cap) (texts : List String) : ℚ :=
  min 100 (max 0 ((avgSentimentOf cap texts + 1) * 50))

/-- The sentiment label:
`"Позитивный" if a > 0.2 else "Нейтральный" if a > -0.1 else "Негативный"`. -/
def sentLabel (a : ℚ) : String :=
  if a > 0.2 then "Позитивный" else if a > -0.1 then "Нейтральный" else "Негативный"

/-- `df.index.min()` of the date column (`0` for the empty frame, where the
original is undefined; every claim assumes a non-empty dataset). -/
def minDay (days : List ℤ) : ℤ :=
  match days with
  | [] => 0
  | d :: rest => rest.foldl min d

/-- `df.index.max()` of the date column. -/
def maxDay (days : List ℤ) : ℤ :=
  match days with
  | [] => 0
  | d :: rest => rest.foldl max d

/-- Number of daily bins produced by `resample('D')`: every calendar day from
the minimum to the maximum date, inclusive. -/
def numDays (days : List ℤ) : ℕ := (maxDay days - minDay days + 1).toNat

/-- Messages on one calendar day (`resample('D').size()` for that bin): a day
with no messages counts `0`. -/
def countOnDay (days : List ℤ) (d : ℤ) : ℕ := days.count d

/-- `daily_activity = df.set_index('date').resample('D').size()`: the list of
per-day counts over the full min-to-max range. -/
def dailyCounts (days : List ℤ) : List ℕ :=
  (List.range (numDays days)).map (fun i : ℕ => countOnDay days (minDay days + (i : ℤ)))

/-- `avg_daily_messages = round(daily_activity.mean(), 1)`. -/
def avgDailyMessagesOf (days : List ℤ) : ℚ :=
  round1 (((dailyCounts days).sum : ℚ) / ((dailyCounts days).length : ℚ))

/-- `communication_score = min(100, max(0, avg_daily_messages * 2))`. -/
def communicationScoreOf (days : List ℤ) : ℚ :=
  min 100 (max 0 (avgDailyMessagesOf days * 2))

/-- The distinct senders appearing in the data (index of
`df['member'].value_counts()`). -/
def membersOf (mems : List String) : List String := mems.dedup

/-- `participation = df['member'].value_counts(normalize=True)`: each distinct
member's share of the total message count. -/
def sharesOf (mems : List String) : List ℚ :=
  (membersOf mems).map (fun m => (mems.count m : ℚ) / (mems.length : ℚ))

/-- The sample variance with divisor `n - 1`, the quantity under the square
root of `pandas.Series.std()` (default `ddof=1`). -/
def sampleVar (xs : List ℚ) : ℚ :=
  (xs.map (fun x => (x - meanQ xs) ^ 2)).sum / ((xs.length : ℚ) - 1)

/-- `pandas.Series.std()` (default `ddof=1`): `none` models the NaN returned
for fewer than two values (the divisor `n - 1` is then nonpositive). -/
noncomputable def sampleStd (xs : List ℚ) : Option ℝ :=
  if 2 ≤ xs.length then some (Real.sqrt ((sampleVar xs : ℚ) : ℝ)) else none

/-- `participation.std()`. -/
noncomputable def participationStdOf (mems : List String) : Option ℝ :=
  sampleStd (sharesOf mems)

/-- `participation_balance = round((1 - participation.std()) * 100, 1)`;
NaN propagates through the arithmetic and the rounding. -/
noncomputable def participationBalanceOf (mems : List String) : Option ℚ :=
  (participationStdOf mems).map (fun s => round1r ((1 - s) * 100))

/-- `balance_score = min(100, max(0, participation_balance))`. When
`participation_balance` is NaN, CPython's `max(0, nan)` returns its first
argument `0` (the comparison `nan > 0` is false), and `min(100, 0) = 0`. -/
noncomputable def balanceScoreOf (mems : List String) : ℚ :=
  match participationBalanceOf mems with
  | none => 0
  | some v => min 100 (max 0 v)

/-- Recommendation rule 1, low communication frequency. -/
def warnFreq : String :=
  "⚠️ Низкая частота коммуникаций. Рекомендуется ввести ежедневные 15-минутные стендапы."

/-- Recommendation rule 2, neutral/negative tone. -/
def warnTone : String :=
  "⚠️ Нейтральный/негативный тон обсуждений. Попробуйте начинать встречи с позитивных моментов."

/-- Recommendation rule 3, uneven participation. -/
def warnBalance : String :=
  "⚠️ Неравномерное участие. Внедрите систему ротации ведущего встреч."

/-- The positive fallback message. -/
def okMsg : String :=
  "✅ Отличный баланс коммуникаций! Продолжайте в том же духе."

/-- The float comparison `std > c` where `std` may be NaN (`none`): any
comparison against NaN is false. -/
def stdGt (p : Option ℝ) (c : ℝ) : Prop := p.elim False (fun s => c < s)

open Classical in
/-- The recommendation generator: the three threshold rules applied in order
to the raw statistics, then the fallback when no rule fired. -/
noncomputable def recommendations (adm asent : ℚ) (pstd : Option ℝ) : List String :=
  let recs := (if adm < 5 then [warnFreq] else []) ++
      (if asent < 0.1 then [warnTone] else []) ++
      (if stdGt pstd 0.3 then [warnBalance] else [])
  if recs = [] then [okMsg] else recs

/-- The Score Report, minus the wall-clock `date` field. The two f-string
labels are modelled as (interpolated value, constant suffix) pairs; a `none`
value is pandas NaN. -/
structure Report where
  total_score : ℚ
  comm_value : ℚ
  comm_score : ℚ
  comm_label : ℚ × String
  sent_value : ℚ
  sent_score : ℚ
  sent_label : String
  bal_value : Option ℚ
  bal_score : ℚ
  bal_label : Option ℚ × String
  recommendations : List String

/-- The core of `analyze_team_communication`, column-wise (a dataframe is its
columns; the `channel` column is never read). -/
noncomputable def analyzeCols (days : List ℤ) (mems texts : List String) (cap : Cap) : Report :=
  { total_score := round1 (communicationScoreOf days * 0.4 +
      sentimentScoreOf cap texts * 0.3 + balanceScoreOf mems * 0.3)
    comm_value := avgDailyMessagesOf days
    comm_score := communicationScoreOf days
    comm_label := (avgDailyMessagesOf days, " сообщений/день")
    sent_value := avgSentimentOf cap texts
    sent_score := sentimentScoreOf cap texts
    sent_label := sentLabel (avgSentimentOf cap texts)
    bal_value := participationBalanceOf mems
    bal_score := balanceScoreOf mems
    bal_label := (participationBalanceOf mems, "% баланса")
    recommendations := recommendations (avgDailyMessagesOf days)
      (avgSentimentOf cap texts) (participationStdOf mems) }

/-- `analyze_team_communication` on a cleaned dataset. -/
noncomputable def analyze (ds : List Record) (cap : Cap) : Report :=
  analyzeCols (dayList ds) (memberList ds) (textList ds) cap

/-! ### Bounds for rounding and clamping -/

theorem rndHE_nonneg {x : ℚ} (hx : 0 ≤ x) : 0 ≤ rndHE x := by
  unfold rndHE
  split_ifs with h he
  · exact Int.floor_nonneg.mpr hx
  · have : (0 : ℤ) ≤ ⌊x⌋ := Int.floor_nonneg.mpr hx
    omega
  · exact Int.le_floor.mpr (by push_cast; linarith)

theorem rndHE_le {x : ℚ} {n : ℤ} (hx : x ≤ n) : rndHE x ≤ n := by
  unfold rndHE
  split_ifs with h he
  · calc ⌊x⌋ ≤ ⌊(n : ℚ)⌋ := Int.floor_le_floor hx
    _ = n := Int.floor_intCast n
  · have hfl : ((⌊x⌋ : ℚ)) < (n : ℚ) := by
      have hx2 : x = ⌊x⌋ + 1 / 2 := by linarith
      linarith [hx2 ▸ hx]
    have : ⌊x⌋ < n := by exact_mod_cast hfl
    omega
  · calc ⌊x + 1 / 2⌋ ≤ ⌊(n : ℚ) + 1 / 2⌋ := Int.floor_le_floor (by linarith)
    _ = n + ⌊(1 / 2 : ℚ)⌋ := Int.floor_int_add n (1 / 2)
    _ = n := by norm_num

theorem round1_nonneg {x : ℚ} (hx : 0 ≤ x) : 0 ≤ round1 x := by
  have h := rndHE_nonneg (x := x * 10) (by linarith)
  unfold round1
  have : (0 : ℚ) ≤ (rndHE (x * 10) : ℚ) := by exact_mod_cast h
  linarith

theorem round1_le_100 {x : ℚ} (hx : x ≤ 100) : round1 x ≤ 100 := by
  have h := rndHE_le (x := x * 10) (n := 1000) (by push_cast; linarith)
  unfold round1
  have : ((rndHE (x * 10) : ℚ)) ≤ 1000 := by exact_mod_cast h
  linarith

theorem clamp_nonneg (x : ℚ) : 0 ≤ min 100 (max 0 x) :=
  le_min (by norm_num) (le_max_left 0 x)

theorem clamp_le_100 (x : ℚ) : min 100 (max 0 x) ≤ 100 := min_le_left _ _

theorem balanceScoreOf_bounds (mems : List String) :
    0 ≤ balanceScoreOf mems ∧ balanceScoreOf mems ≤ 100 := by
  unfold balanceScoreOf
  cases participationBalanceOf mems with
  | none => norm_num
  | some v => exact ⟨clamp_nonneg v, clamp_le_100 v⟩

/-! ### Concrete datasets used as test inputs -/

/-- Two messages, both from the same single member, on one day. -/
def dsSolo : List Record :=
  [⟨0, "general", "alice", "hi"⟩, ⟨0, "general", "alice", "ok"⟩]

/-- A single message whose polarity will average to exactly `-0.1`. -/
def dsNeg : List Record := [⟨0, "general", "bob", "bad"⟩]

/-- Two messages from two different members on two consecutive days. -/
def dsTwo : List Record := [⟨0, "general", "ann", "aa"⟩, ⟨1, "dev", "ben", "bb"⟩]

/-- A sentiment capability that always returns the neutral polarity `0`. -/
def cap0 : Cap := fun _ => some 0

/-- A sentiment capability that always returns polarity `-0.1`. -/
def capNeg : Cap := fun _ => some (-0.1)

/-- A sentiment capability that always raises. -/
def capNone : Cap := fun _ => none

/-! ### The four advisory strings are pairwise distinct -/

theorem okMsg_ne_warnFreq : okMsg ≠ warnFreq := by decide

theorem okMsg_ne_warnTone : okMsg ≠ warnTone := by decide

theorem okMsg_ne_warnBalance : okMsg ≠ warnBalance := by decide

theorem warnBalance_ne_warnFreq : warnBalance ≠ warnFreq := by decide

theorem warnBalance_ne_warnTone : warnBalance ≠ warnTone := by decide

open Classical in
/-- C7: for every triple of raw statistics the recommendation list is the
warnings of the matching rules in the fixed order (activity, sentiment,
balance; all matching rules included); exactly when no rule fires, it is the
single fallback message; it is never empty, and the fallback appears iff no
warning does. -/
theorem recommendations_spec (a s : ℚ) (p : Option ℝ) :
    recommendations a s p ≠ [] ∧
    ((a < 5 ∨ s < 0.1 ∨ stdGt p 0.3) →
      recommendations a s p =
        (if a < 5 then [warnFreq] else []) ++ (if s < 0.1 then [warnTone] else []) ++
          (if stdGt p 0.3 then [warnBalance] else [])) ∧
    (¬(a < 5 ∨ s < 0.1 ∨ stdGt p 0.3) → recommendations a s p = [okMsg]) ∧
    (okMsg ∈ recommendations a s p ↔ ¬(a < 5 ∨ s < 0.1 ∨ stdGt p 0.3)) := by
  by_cases h1 : a < 5 <;> by_cases h2 : s < 0.1 <;> by_cases h3 : stdGt p 0.3 <;>
    simp [recommendations, h1, h2, h3, okMsg_ne_warnFreq, okMsg_ne_warnTone,
      okMsg_ne_warnBalance]

/-- Witness for `recommendations_spec` at the concrete triple `(10, 1, none)`
(no rule fires there, so the list is exactly the fallback). -/
theorem recommendations_spec_witness :
    ¬((10 : ℚ) < 5 ∨ (1 : ℚ) < 0.1 ∨ stdGt none 0.3) ∧
      recommendations 10 1 none = [okMsg] := by
  have h : ¬((10 : ℚ) < 5 ∨ (1 : ℚ) < 0.1 ∨ stdGt none 0.3) := by
    simp [stdGt]
    norm_num
  exact ⟨h, (recommendations_spec 10 1 none).2.2.1 h⟩

/-- C9: a per-record failure of the sentiment capability is replaced by the
neutral polarity `0` for that record only, and the analysis of the whole
dataset is the same as with a capability that never fails — a full report is
produced, the failure does not propagate. -/
theorem sentiment_failure_local (ds : List Record) (cap : Cap) (t : String)
    (hfail : cap t = none) :
    getSentiment cap t = 0 ∧
      analyze ds cap = analyze ds (fun u => some (getSentiment cap u)) :=
  ⟨by simp [getSentiment, hfail], rfl⟩

/-- Witness for `sentiment_failure_local`: the always-raising capability on a
concrete dataset. -/
theorem sentiment_failure_local_witness :
    capNone "hi" = none ∧
      (getSentiment capNone "hi" = 0 ∧
        analyze dsSolo capNone = analyze dsSolo (fun u => some (getSentiment capNone u))) :=
  ⟨rfl, sentiment_failure_local dsSolo capNone "hi" rfl⟩

/-- Two records that agree except possibly on `channel`. -/
def sameButChannel (a b : Record) : Prop :=
  a.day = b.day ∧ a.member = b.member ∧ a.text = b.text

theorem forall2_projections {ds₁ ds₂ : List Record}
    (h : List.Forall₂ sameButChannel ds₁ ds₂) :
    dayList ds₁ = dayList ds₂ ∧ memberList ds₁ = memberList ds₂ ∧
      textList ds₁ = textList ds₂ := by
  induction h with
  | nil => simp [dayList, memberList, textList]
  | cons hab hrest ih =>
    obtain ⟨h1, h2, h3⟩ := hab
    simp only [dayList, memberList, textList, List.map_cons] at ih ⊢
    exact ⟨by rw [h1, ih.1], by rw [h2, ih.2.1], by rw [h3, ih.2.2]⟩

/-- C10: two cleaned datasets that are identical except for the `channel`
field of their records produce identical reports (all metric values, scores
and labels, the total score, and the recommendation list). -/
theorem channel_independent (ds₁ ds₂ : List Record) (cap : Cap)
    (h : List.Forall₂ sameButChannel ds₁ ds₂) :
    analyze ds₁ cap = analyze ds₂ cap := by
  obtain ⟨h1, h2, h3⟩ := forall2_projections h
  unfold analyze
  rw [h1, h2, h3]

/-- One record on channel `general`. -/
def dsChanA : List Record := [⟨0, "general", "m", "t"⟩]

/-- The same record moved to channel `random`. -/
def dsChanB : List Record := [⟨0, "random", "m", "t"⟩]

/-- Witness for `channel_independent` on a concrete pair of datasets that
differ only in the channel. -/
theorem channel_independent_witness :
    List.Forall₂ sameButChannel dsChanA dsChanB ∧
      analyze dsChanA cap0 = analyze dsChanB cap0 := by
  have h : List.Forall₂ sameButChannel dsChanA dsChanB :=
    List.Forall₂.cons ⟨rfl, rfl, rfl⟩ List.Forall₂.nil
  exact ⟨h, channel_independent dsChanA dsChanB cap0 h⟩

/-- C5: the total score is the fixed `0.4/0.3/0.3`-weighted sum of the three
clamped sub-scores, rounded to one decimal, and lies in `[0, 100]`. -/
theorem total_score_spec (ds : List Record) (cap : Cap) (h : ds ≠ []) :
    (analyze ds cap).total_score =
      round1 ((analyze ds cap).comm_score * 0.4 + (analyze ds cap).sent_score * 0.3 +
        (analyze ds cap).bal_score * 0.3) ∧
    0 ≤ (analyze ds cap).total_score ∧ (analyze ds cap).total_score ≤ 100 := by
  have hc1 : 0 ≤ communicationScoreOf (dayList ds) := clamp_nonneg _
  have hc2 : communicationScoreOf (dayList ds) ≤ 100 := clamp_le_100 _
  have hs1 : 0 ≤ sentimentScoreOf cap (textList ds) := clamp_nonneg _
  have hs2 : sentimentScoreOf cap (textList ds) ≤ 100 := clamp_le_100 _
  obtain ⟨hb1, hb2⟩ := balanceScoreOf_bounds (memberList ds)
  refine ⟨rfl, round1_nonneg (by linarith), round1_le_100 (by linarith)⟩

/-- Witness for `total_score_spec` on a concrete two-member dataset. -/
theorem total_score_spec_witness :
    dsTwo ≠ [] ∧
      ((analyze dsTwo cap0).total_score =
        round1 ((analyze dsTwo cap0).comm_score * 0.4 + (analyze dsTwo cap0).sent_score * 0.3 +
          (analyze dsTwo cap0).bal_score * 0.3) ∧
      0 ≤ (analyze dsTwo cap0).total_score ∧ (analyze dsTwo cap0).total_score ≤ 100) :=
  ⟨by simp [dsTwo], total_score_spec dsTwo cap0 (by simp [dsTwo])⟩

/-- C6: each of the three sub-scores is clamped into `[0, 100]`, whatever the
input dataset. -/
theorem sub_scores_bounded (ds : List Record) (cap : Cap) (h : ds ≠ []) :
    (0 ≤ (analyze ds cap).comm_score ∧ (analyze ds cap).comm_score ≤ 100) ∧
    (0 ≤ (analyze ds cap).sent_score ∧ (analyze ds cap).sent_score ≤ 100) ∧
    (0 ≤ (analyze ds cap).bal_score ∧ (analyze ds cap).bal_score ≤ 100) :=
  ⟨⟨clamp_nonneg _, clamp_le_100 _⟩, ⟨clamp_nonneg _, clamp_le_100 _⟩,
    balanceScoreOf_bounds (memberList ds)⟩

/-- Witness for `sub_scores_bounded` on a concrete single-member dataset (the
pathological all-identical-sender case). -/
theorem sub_scores_bounded_witness :
    dsSolo ≠ [] ∧
      ((0 ≤ (analyze dsSolo cap0).comm_score ∧ (analyze dsSolo cap0).comm_score ≤ 100) ∧
      (0 ≤ (analyze dsSolo cap0).sent_score ∧ (analyze dsSolo cap0).sent_score ≤ 100) ∧
      (0 ≤ (analyze dsSolo cap0).bal_score ∧ (analyze dsSolo cap0).bal_score ≤ 100)) :=
  ⟨by simp [dsSolo], sub_scores_bounded dsSolo cap0 (by simp [dsSolo])⟩

/-! ### The three sentiment labels are pairwise distinct -/

theorem pos_ne_neut : ("Позитивный" : String) ≠ "Нейтральный" := by decide

theorem pos_ne_neg : ("Позитивный" : String) ≠ "Негативный" := by decide

theorem neut_ne_neg : ("Нейтральный" : String) ≠ "Негативный" := by decide

/-- C1 counterexample: on a dataset whose rounded average sentiment is exactly
`-0.1` the produced label is not `"Нейтральный"` — the code labels the `-0.1`
boundary `"Негативный"`, because its test `avg_sentiment > -0.1` is strict. -/
theorem sent_label_neg_boundary_cex :
    avgSentimentOf capNeg (textList dsNeg) = -0.1 ∧
      (analyze dsNeg capNeg).sent_label ≠ "Нейтральный" := by
  have ha : avgSentimentOf capNeg (textList dsNeg) = -0.1 := by
    norm_num [avgSentimentOf, meanQ, textList, dsNeg, getSentiment, capNeg, round2, rndHE]
  refine ⟨ha, ?_⟩
  show sentLabel (avgSentimentOf capNeg (textList dsNeg)) ≠ "Нейтральный"
  rw [ha]
  have hv : sentLabel (-0.1) = "Негативный" := by norm_num [sentLabel]
  rw [hv]
  exact neut_ne_neg.symm

/-- C1 (amended): the label is `"Позитивный"` iff `avg_sentiment > 0.2`,
`"Нейтральный"` iff `-0.1 < avg_sentiment ≤ 0.2`, and `"Негативный"` iff
`avg_sentiment ≤ -0.1`; in particular exactly `0.2` is labelled Neutral but
exactly `-0.1` is labelled Negative. -/
theorem sent_label_thresholds (ds : List Record) (cap : Cap) (h : ds ≠ []) :
    ((analyze ds cap).sent_label = "Позитивный" ↔
      0.2 < avgSentimentOf cap (textList ds)) ∧
    ((analyze ds cap).sent_label = "Нейтральный" ↔
      -0.1 < avgSentimentOf cap (textList ds) ∧ avgSentimentOf cap (textList ds) ≤ 0.2) ∧
    ((analyze ds cap).sent_label = "Негативный" ↔
      avgSentimentOf cap (textList ds) ≤ -0.1) := by
  have hl : (analyze ds cap).sent_label = sentLabel (avgSentimentOf cap (textList ds)) := rfl
  set a := avgSentimentOf cap (textList ds) with ha
  by_cases h1 : (0.2 : ℚ) < a
  · have hv : sentLabel a = "Позитивный" := by rw [sentLabel, if_pos h1]
    rw [hl, hv]
    refine ⟨by simp [h1], ?_, ?_⟩
    · exact ⟨fun hh => absurd hh pos_ne_neut, fun hc => absurd h1 (not_lt.mpr hc.2)⟩
    · exact ⟨fun hh => absurd hh pos_ne_neg,
        fun hc => absurd h1 (not_lt.mpr (hc.trans (by norm_num)))⟩
  · by_cases h2 : (-0.1 : ℚ) < a
    · have hv : sentLabel a = "Нейтральный" := by rw [sentLabel, if_neg h1, if_pos h2]
      rw [hl, hv]
      refine ⟨⟨fun hh => absurd hh pos_ne_neut.symm, fun hc => absurd hc h1⟩, ?_, ?_⟩
      · exact iff_of_true rfl ⟨h2, not_lt.mp h1⟩
      · exact ⟨fun hh => absurd hh neut_ne_neg, fun hc => absurd h2 (not_lt.mpr hc)⟩
    · have hv : sentLabel a = "Негативный" := by rw [sentLabel, if_neg h1, if_neg h2]
      rw [hl, hv]
      refine ⟨⟨fun hh => absurd hh pos_ne_neg.symm, fun hc => absurd hc h1⟩, ?_, ?_⟩
      · exact ⟨fun hh => absurd hh neut_ne_neg.symm, fun hc => absurd hc.1 h2⟩
      · exact iff_of_true rfl (not_lt.mp h2)

/-- Witness for `sent_label_thresholds` on a concrete dataset. -/
theorem sent_label_thresholds_witness :
    dsNeg ≠ [] ∧
      (((analyze dsNeg capNeg).sent_label = "Позитивный" ↔
        0.2 < avgSentimentOf capNeg (textList dsNeg)) ∧
      ((analyze dsNeg capNeg).sent_label = "Нейтральный" ↔
        -0.1 < avgSentimentOf capNeg (textList dsNeg) ∧
          avgSentimentOf capNeg (textList dsNeg) ≤ 0.2) ∧
      ((analyze dsNeg capNeg).sent_label = "Негативный" ↔
        avgSentimentOf capNeg (textList dsNeg) ≤ -0.1)) :=
  ⟨by simp [dsNeg], sent_label_thresholds dsNeg capNeg (by simp [dsNeg])⟩

/-! ### Participation: single-member datasets give a NaN std -/

theorem dedup_of_all_eq (m : String) :
    ∀ l : List String, l ≠ [] → (∀ x ∈ l, x = m) → l.dedup = [m] := by
  intro l
  induction l with
  | nil => intro h; exact absurd rfl h
  | cons a t ih =>
    intro _ hall
    have ham : a = m := hall a (List.mem_cons_self a t)
    cases t with
    | nil => rw [List.dedup_cons_of_not_mem (by simp), List.dedup_nil, ham]
    | cons b t2 =>
      have hd := ih (by simp) (fun x hx => hall x (List.mem_cons_of_mem a hx))
      have hmem : a ∈ (b :: t2).dedup := by rw [hd]; simp [ham]
      rw [List.dedup_cons_of_mem' hmem, hd]

theorem single_member_std_none {ds : List Record} {m : String}
    (hne : ds ≠ []) (hm : ∀ r ∈ ds, r.member = m) :
    participationStdOf (memberList ds) = none := by
  have hmem_ne : memberList ds ≠ [] := by
    rw [Ne, memberList, List.map_eq_nil_iff]
    exact hne
  have hall : ∀ x ∈ memberList ds, x = m := by
    intro x hx
    simp only [memberList, List.mem_map] at hx
    obtain ⟨r, hr, hrx⟩ := hx
    rw [← hrx]
    exact hm r hr
  have hd : (memberList ds).dedup = [m] := dedup_of_all_eq m _ hmem_ne hall
  have hlen : (sharesOf (memberList ds)).length = 1 := by
    simp [sharesOf, membersOf, hd]
  simp [participationStdOf, sampleStd, hlen]

theorem sampleVar_nonneg {xs : List ℚ} (h : 2 ≤ xs.length) : 0 ≤ sampleVar xs := by
  unfold sampleVar
  apply div_nonneg
  · apply List.sum_nonneg
    intro x hx
    simp only [List.mem_map] at hx
    obtain ⟨y, _, rfl⟩ := hx
    positivity
  · have : (2 : ℚ) ≤ (xs.length : ℚ) := by exact_mod_cast h
    linarith

/-- C4: `participation.std()` is the sample standard deviation (divisor
`n - 1`) of the message shares of the distinct senders appearing in the data:
for at least two distinct senders it is the nonnegative square root of the
`n - 1`-divided variance of the shares, and when all messages come from one
single member it is NaN (`none`). -/
theorem participation_std_spec (ds : List Record) (m : String) :
    ((ds ≠ [] ∧ ∀ r ∈ ds, r.member = m) → participationStdOf (memberList ds) = none) ∧
    (2 ≤ (sharesOf (memberList ds)).length →
      ∃ s : ℝ, participationStdOf (memberList ds) = some s ∧ 0 ≤ s ∧
        s ^ 2 = ((sampleVar (sharesOf (memberList ds)) : ℚ) : ℝ)) := by
  constructor
  · rintro ⟨hne, hm⟩
    exact single_member_std_none hne hm
  · intro hlen
    refine ⟨Real.sqrt ((sampleVar (sharesOf (memberList ds)) : ℚ) : ℝ), ?_,
      Real.sqrt_nonneg _, ?_⟩
    · simp [participationStdOf, sampleStd, hlen]
    · exact Real.sq_sqrt (by exact_mod_cast sampleVar_nonneg hlen)

theorem dsTwo_shares_len : 2 ≤ (sharesOf (memberList dsTwo)).length := by
  have h : (memberList dsTwo).dedup = memberList dsTwo :=
    List.dedup_eq_self.mpr (by decide)
  simp [sharesOf, membersOf, h, memberList, dsTwo]

/-- Witness for `participation_std_spec`: the single-member branch at
`dsSolo`, the two-member branch at `dsTwo`. -/
theorem participation_std_spec_witness :
    (dsSolo ≠ [] ∧ ∀ r ∈ dsSolo, r.member = "alice") ∧
    participationStdOf (memberList dsSolo) = none ∧
    2 ≤ (sharesOf (memberList dsTwo)).length ∧
    (∃ s : ℝ, participationStdOf (memberList dsTwo) = some s ∧ 0 ≤ s ∧
      s ^ 2 = ((sampleVar (sharesOf (memberList dsTwo)) : ℚ) : ℝ)) := by
  have h1 : dsSolo ≠ [] ∧ ∀ r ∈ dsSolo, r.member = "alice" := ⟨by simp [dsSolo], by decide⟩
  exact ⟨h1, (participation_std_spec dsSolo "alice").1 h1, dsTwo_shares_len,
    (participation_std_spec dsTwo "alice").2 dsTwo_shares_len⟩

/-- C2, the code evaluated at the failing input: on the single-member dataset
`dsSolo` the balance metric's reported value (and the value interpolated into
its label) is NaN — `1 - participation.std()` with `std = NaN`. -/
theorem bal_value_nan_single_member :
    (analyze dsSolo cap0).bal_value = none ∧ (analyze dsSolo cap0).bal_label.1 = none :=
  ⟨rfl, rfl⟩

/-- C3 counterexample: `dsSolo` is a dataset in which one single member sends
all the messages, yet the uneven-participation warning is absent from its
recommendation list (NaN `std` makes the `> 0.3` test false). -/
theorem uneven_warning_missing_cex :
    (∀ r ∈ dsSolo, r.member = "alice") ∧
      warnBalance ∉ (analyze dsSolo cap0).recommendations := by
  refine ⟨by decide, ?_⟩
  show warnBalance ∉ recommendations (avgDailyMessagesOf (dayList dsSolo))
    (avgSentimentOf cap0 (textList dsSolo)) (participationStdOf (memberList dsSolo))
  have hstd : participationStdOf (memberList dsSolo) = none := rfl
  rw [hstd]
  have h1 : avgDailyMessagesOf (dayList dsSolo) < 5 := by
    norm_num [avgDailyMessagesOf, dailyCounts, numDays, minDay, maxDay, countOnDay,
      dayList, dsSolo, round1, rndHE, List.range_succ, List.count_cons]
  have h2 : avgSentimentOf cap0 (textList dsSolo) < 0.1 := by
    norm_num [avgSentimentOf, meanQ, textList, dsSolo, getSentiment, cap0, round2, rndHE]
  have h3 : ¬stdGt (none : Option ℝ) 0.3 := by simp [stdGt]
  simp [recommendations, h1, h2, h3, warnBalance_ne_warnFreq, warnBalance_ne_warnTone]

/-- C3 (amended): when one single member sends all the messages, the balance
score collapses to `0` (well below the perfectly even value `100`), but the
uneven-participation recommendation is NOT emitted: `participation.std()` is
NaN for one distinct sender and `NaN > 0.3` is false. -/
theorem single_member_balance (ds : List Record) (cap : Cap) (m : String)
    (hne : ds ≠ []) (hm : ∀ r ∈ ds, r.member = m) :
    (analyze ds cap).bal_score = 0 ∧ (analyze ds cap).bal_score < 100 ∧
      warnBalance ∉ (analyze ds cap).recommendations := by
  have hstd : participationStdOf (memberList ds) = none := single_member_std_none hne hm
  have hb : (analyze ds cap).bal_score = 0 := by
    show balanceScoreOf (memberList ds) = 0
    simp [balanceScoreOf, participationBalanceOf, hstd]
  refine ⟨hb, by rw [hb]; norm_num, ?_⟩
  show warnBalance ∉ recommendations (avgDailyMessagesOf (dayList ds))
    (avgSentimentOf cap (textList ds)) (participationStdOf (memberList ds))
  rw [hstd]
  have h3 : ¬stdGt (none : Option ℝ) 0.3 := by simp [stdGt]
  by_cases h1 : avgDailyMessagesOf (dayList ds) < 5 <;>
    by_cases h2 : avgSentimentOf cap (textList ds) < 0.1 <;>
      simp [recommendations, h1, h2, h3, warnBalance_ne_warnFreq, warnBalance_ne_warnTone,
        Ne.symm okMsg_ne_warnBalance]

/-- Witness for `single_member_balance` on the concrete dataset `dsSolo`. -/
theorem single_member_balance_witness :
    dsSolo ≠ [] ∧ (∀ r ∈ dsSolo, r.member = "alice") ∧
      ((analyze dsSolo cap0).bal_score = 0 ∧ (analyze dsSolo cap0).bal_score < 100 ∧
        warnBalance ∉ (analyze dsSolo cap0).recommendations) :=
  ⟨by simp [dsSolo], by decide,
    single_member_balance dsSolo cap0 "alice" (by simp [dsSolo]) (by decide)⟩

/-! ### The daily-activity metric: resample semantics -/

theorem foldl_min_spec (l : List ℤ) : ∀ a : ℤ,
    (l.foldl min a = a ∨ l.foldl min a ∈ l) ∧ l.foldl min a ≤ a ∧
      ∀ x ∈ l, l.foldl min a ≤ x := by
  induction l with
  | nil => exact fun a => ⟨Or.inl rfl, le_refl a, by simp⟩
  | cons b t ih =>
    intro a
    obtain ⟨hmem, hle, hall⟩ := ih (min a b)
    simp only [List.foldl_cons]
    refine ⟨?_, le_trans hle (min_le_left a b), ?_⟩
    · rcases hmem with h | h
      · rcases min_choice a b with hc | hc
        · exact Or.inl (h.trans hc)
        · exact Or.inr (by rw [h, hc]; exact List.mem_cons_self b t)
      · exact Or.inr (List.mem_cons_of_mem b h)
    · intro x hx
      rcases List.mem_cons.mp hx with hx | hx
      · rw [hx]; exact le_trans hle (min_le_right a b)
      · exact hall x hx

theorem foldl_max_spec (l : List ℤ) : ∀ a : ℤ,
    (l.foldl max a = a ∨ l.foldl max a ∈ l) ∧ a ≤ l.foldl max a ∧
      ∀ x ∈ l, x ≤ l.foldl max a := by
  induction l with
  | nil => exact fun a => ⟨Or.inl rfl, le_refl a, by simp⟩
  | cons b t ih =>
    intro a
    obtain ⟨hmem, hle, hall⟩ := ih (max a b)
    simp only [List.foldl_cons]
    refine ⟨?_, le_trans (le_max_left a b) hle, ?_⟩
    · rcases hmem with h | h
      · rcases max_choice a b with hc | hc
        · exact Or.inl (h.trans hc)
        · exact Or.inr (by rw [h, hc]; exact List.mem_cons_self b t)
      · exact Or.inr (List.mem_cons_of_mem b h)
    · intro x hx
      rcases List.mem_cons.mp hx with hx | hx
      · rw [hx]; exact le_trans (le_max_right a b) hle
      · exact hall x hx

theorem minDay_spec (days : List ℤ) (h : days ≠ []) :
    minDay days ∈ days ∧ ∀ x ∈ days, minDay days ≤ x := by
  cases days with
  | nil => exact absurd rfl h
  | cons d rest =>
    obtain ⟨hmem, hle, hall⟩ := foldl_min_spec rest d
    show List.foldl min d rest ∈ d :: rest ∧ ∀ x ∈ d :: rest, List.foldl min d rest ≤ x
    refine ⟨?_, ?_⟩
    · rcases hmem with h1 | h1
      · rw [h1]; exact List.mem_cons_self d rest
      · exact List.mem_cons_of_mem d h1
    · intro x hx
      rcases List.mem_cons.mp hx with hx | hx
      · rw [hx]; exact hle
      · exact hall x hx

theorem maxDay_spec (days : List ℤ) (h : days ≠ []) :
    maxDay days ∈ days ∧ ∀ x ∈ days, x ≤ maxDay days := by
  cases days with
  | nil => exact absurd rfl h
  | cons d rest =>
    obtain ⟨hmem, hle, hall⟩ := foldl_max_spec rest d
    show List.foldl max d rest ∈ d :: rest ∧ ∀ x ∈ d :: rest, x ≤ List.foldl max d rest
    refine ⟨?_, ?_⟩
    · rcases hmem with h1 | h1
      · rw [h1]; exact List.mem_cons_self d rest
      · exact List.mem_cons_of_mem d h1
    · intro x hx
      rcases List.mem_cons.mp hx with hx | hx
      · rw [hx]; exact hle
      · exact hall x hx

theorem Icc_insert_top {a b : ℤ} (h : a ≤ b + 1) :
    Finset.Icc a (b + 1) = insert (b + 1) (Finset.Icc a b) := by
  ext x
  simp only [Finset.mem_Icc, Finset.mem_insert]
  omega

theorem range_map_sum_Icc (f : ℤ → ℚ) (a : ℤ) :
    ∀ n : ℕ, ((List.range n).map (fun i : ℕ => f (a + (i : ℤ)))).sum =
      ∑ d in Finset.Icc a (a + n - 1), f d := by
  intro n
  induction n with
  | zero =>
    have he : a + ((0 : ℕ) : ℤ) - 1 = a - 1 := by push_cast; ring
    rw [he, Finset.Icc_eq_empty (by omega), Finset.sum_empty]
    simp
  | succ n ih =>
    rw [List.range_succ, List.map_append, List.sum_append, ih]
    have hcast : a + ((n + 1 : ℕ) : ℤ) - 1 = (a + (n : ℤ) - 1) + 1 := by push_cast; ring
    rw [hcast, Icc_insert_top (by omega),
      Finset.sum_insert (by simp only [Finset.mem_Icc]; omega)]
    have he : (a + (n : ℤ) - 1) + 1 = a + (n : ℤ) := by ring
    rw [he]
    simp [add_comm]

theorem minDay_le_maxDay {days : List ℤ} (h : days ≠ []) : minDay days ≤ maxDay days :=
  (maxDay_spec days h).2 _ (minDay_spec days h).1

theorem numDays_cast {days : List ℤ} (h : days ≠ []) :
    (numDays days : ℤ) = maxDay days - minDay days + 1 := by
  have := minDay_le_maxDay h
  simp only [numDays]
  exact Int.toNat_of_nonneg (by omega)

theorem dailyCounts_sum_Icc (days : List ℤ) (h : days ≠ []) :
    ((dailyCounts days).sum : ℚ) =
      ∑ d in Finset.Icc (minDay days) (maxDay days), (countOnDay days d : ℚ) := by
  rw [Nat.cast_list_sum]
  unfold dailyCounts
  rw [List.map_map]
  have h2 := range_map_sum_Icc (fun d => (countOnDay days d : ℚ)) (minDay days) (numDays days)
  have h3 : ((fun k : ℕ => (k : ℚ)) ∘ fun i : ℕ => countOnDay days (minDay days + (i : ℤ))) =
      fun i : ℕ => ((fun d : ℤ => (countOnDay days d : ℚ)) (minDay days + (i : ℤ))) := rfl
  rw [h3, h2]
  have h4 : minDay days + ((numDays days : ℤ)) - 1 = maxDay days := by
    rw [numDays_cast h]; ring
  rw [h4]

theorem dailyCounts_length_card (days : List ℤ) (h : days ≠ []) :
    ((dailyCounts days).length : ℚ) =
      ((Finset.Icc (minDay days) (maxDay days)).card : ℚ) := by
  have h1 : (dailyCounts days).length = numDays days := by
    simp only [dailyCounts, List.length_map, List.length_range]
  have h2 : (Finset.Icc (minDay days) (maxDay days)).card =
      (maxDay days + 1 - minDay days).toNat := Int.card_Icc _ _
  rw [h1, h2]
  congr 1
  simp only [numDays]
  congr 1
  ring

/-- C8: `avg_daily_messages` is the one-decimal rounding of the mean of the
per-calendar-day message counts over every calendar day from the dataset's
minimum date to its maximum date inclusive — days with no messages count as
zero-count days (their `countOnDay` is `0`); `minDay`/`maxDay` really are the
minimum and maximum dates of the dataset. -/
theorem avg_daily_messages_spec (ds : List Record) (h : ds ≠ []) :
    avgDailyMessagesOf (dayList ds) =
      round1 ((∑ d in Finset.Icc (minDay (dayList ds)) (maxDay (dayList ds)),
          (countOnDay (dayList ds) d : ℚ)) /
        ((Finset.Icc (minDay (dayList ds)) (maxDay (dayList ds))).card : ℚ)) ∧
    (∀ x ∈ dayList ds, minDay (dayList ds) ≤ x ∧ x ≤ maxDay (dayList ds)) ∧
    minDay (dayList ds) ∈ dayList ds ∧ maxDay (dayList ds) ∈ dayList ds := by
  have hdays : dayList ds ≠ [] := by
    rw [Ne, dayList, List.map_eq_nil_iff]
    exact h
  obtain ⟨hminmem, hminle⟩ := minDay_spec (dayList ds) hdays
  obtain ⟨hmaxmem, hmaxle⟩ := maxDay_spec (dayList ds) hdays
  refine ⟨?_, fun x hx => ⟨hminle x hx, hmaxle x hx⟩, hminmem, hmaxmem⟩
  unfold avgDailyMessagesOf
  rw [dailyCounts_sum_Icc (dayList ds) hdays, dailyCounts_length_card (dayList ds) hdays]

/-- Witness for `avg_daily_messages_spec` on a concrete two-day dataset. -/
theorem avg_daily_messages_spec_witness :
    dsTwo ≠ [] ∧
      (avgDailyMessagesOf (dayList dsTwo) =
        round1 ((∑ d in Finset.Icc (minDay (dayList dsTwo)) (maxDay (dayList dsTwo)),
            (countOnDay (dayList dsTwo) d : ℚ)) /
          ((Finset.Icc (minDay (dayList dsTwo)) (maxDay (dayList dsTwo))).card : ℚ)) ∧
      (∀ x ∈ dayList dsTwo, minDay (dayList dsTwo) ≤ x ∧ x ≤ maxDay (dayList dsTwo)) ∧
      minDay (dayList dsTwo) ∈ dayList dsTwo ∧ maxDay (dayList dsTwo) ∈ dayList dsTwo) :=
  ⟨by simp [dsTwo], avg_daily_messages_spec dsTwo (by simp [dsTwo])⟩

end TeamSync
